import Mathlib

/-!
# Verification of the cli-hypertuner core (`src/hypertuner.py`)

A shallow embedding of the numerical core of `hypertuner.py`:

* `loss_function`       — lines 36–47
* `round_probabilities` — lines 58–73 (largest-remainder rounding), split into the
  intermediate values the source computes (`floorVals`, `remainders`, `deficit`,
  `sortedIndices`, `bumpIndices`)
* the Dirichlet/baseline sampler of `objective` — lines 98–116 (`sampleStage`)
* the reconstruction in `main` — lines 174–189 (`bestTrialAlloc`)

Python floats are embedded as exact elements of a linear ordered field
(instantiated at `ℚ` for executable statements and at `ℝ` where the sampler's
logarithms are involved).  Python exceptions (`math.log` domain errors, the
IndexError a too-large deficit would raise in the distribution loop, and the
NaNs numpy produces when the normalising denominator is zero, which crash in
`math.floor` downstream) are embedded as `Option.none`.
-/

namespace Hypertuner

/-- `VARIABLES["names"]` (line 32). -/
def names : List String := ["VT", "THNQ", "UPRO", "KMLM", "GLD", "TLT"]

/-- `VARIABLES["precision"]` (line 33). -/
def precision : ℕ := 4

/-- `loss_function` (lines 36–47): `-sharpe + max(0, maxdrawdown / 100 - 0.4)`. -/
def loss_function {α : Type*} [LinearOrderedField α] (sharpe maxdrawdown : α) : α :=
  -sharpe + max 0 (maxdrawdown / 100 - 0.4)

section ExactRounder

variable {α : Type*} [LinearOrderedField α] [FloorRing α]

/-- Line 65: `floor_vals = [int(math.floor(prob * scale)) for prob in p]`
with `scale = 10 ** digits` (line 64). -/
def floorVals (p : List α) (digits : ℕ) : List ℤ :=
  p.map fun prob => ⌊prob * (10 : α) ^ digits⌋

/-- Line 66: `remainders = [prob * scale - fv for prob, fv in zip(p, floor_vals)]`. -/
def remainders (p : List α) (digits : ℕ) : List α :=
  List.zipWith (fun prob (fv : ℤ) => prob * (10 : α) ^ digits - (fv : α)) p (floorVals p digits)

/-- Line 68: `deficit = scale - total_floor` where `total_floor = sum(floor_vals)`
(line 67). -/
def deficit (p : List α) (digits : ℕ) : ℤ :=
  10 ^ digits - (floorVals p digits).sum

/-- The order computed by line 70,
`sorted(range(len(p)), key=lambda i: remainders[i], reverse=True)`:
Python's sort is stable, so index `i` precedes index `j` exactly when
`remainders[i] > remainders[j]`, or they are equal and `i` comes first. -/
def remRel (rs : List α) (i j : ℕ) : Prop :=
  rs.getD j 0 < rs.getD i 0 ∨ (rs.getD i 0 = rs.getD j 0 ∧ i ≤ j)

instance remRel.decidableRel (rs : List α) : DecidableRel (remRel rs) := fun _ _ =>
  inferInstanceAs (Decidable (_ ∨ _))

/-- Line 70: the stably sorted index list. -/
def sortedIndices (p : List α) (digits : ℕ) : List ℕ :=
  List.insertionSort (remRel (remainders p digits)) (List.range p.length)

/-- The indices incremented by the loop of lines 71–72:
`for i in range(deficit): floor_vals[indices[i]] += 1`. -/
def bumpIndices (p : List α) (digits : ℕ) : List ℕ :=
  (sortedIndices p digits).take (deficit p digits).toNat

/-- The loop of lines 71–72 as a fold: each listed index gets one extra unit. -/
def bumpAll (fv : List ℤ) (idxs : List ℕ) : List ℤ :=
  idxs.foldl (fun acc i => acc.set i (acc.getD i 0 + 1)) fv

/-- `round_probabilities` (lines 58–73).  The loop of lines 71–72 raises
`IndexError` when `deficit > len(p)`; that failure is embedded as `none`. -/
def round_probabilities (p : List α) (digits : ℕ) : Option (List α) :=
  if (deficit p digits).toNat ≤ p.length then
    some ((bumpAll (floorVals p digits) (bumpIndices p digits)).map
      fun v : ℤ => (v : α) / (10 : α) ^ digits)
  else none

end ExactRounder

section ListLemmas

variable {α : Type*} [LinearOrderedField α]

/-- Sum of a pointwise difference of images. -/
theorem sum_map_sub {β : Type*} (l : List β) (f g : β → α) :
    (l.map fun x => f x - g x).sum = (l.map f).sum - (l.map g).sum := by
  induction l with
  | nil => simp
  | cons a t ih => simp only [List.map_cons, List.sum_cons, ih]; ring

/-- Sum of pointwise division by a constant. -/
theorem sum_map_div {β : Type*} (l : List β) (f : β → α) (c : α) :
    (l.map fun x => f x / c).sum = (l.map f).sum / c := by
  induction l with
  | nil => simp
  | cons a t ih => simp only [List.map_cons, List.sum_cons, ih]; ring

/-- A list of values each `< 1` sums to at most its length. -/
theorem sum_le_length (l : List α) (h : ∀ x ∈ l, x < 1) : l.sum ≤ (l.length : α) := by
  induction l with
  | nil => simp
  | cons a t ih =>
    have ha : a < 1 := h a (List.mem_cons_self a t)
    have ht : t.sum ≤ (t.length : α) := ih fun x hx => h x (List.mem_cons_of_mem a hx)
    simp only [List.sum_cons, List.length_cons]
    push_cast
    linarith

/-- A nonempty list of values each `< 1` sums to strictly less than its length. -/
theorem sum_lt_length (l : List α) (hne : l ≠ []) (h : ∀ x ∈ l, x < 1) :
    l.sum < (l.length : α) := by
  cases l with
  | nil => exact absurd rfl hne
  | cons a t =>
    have ha : a < 1 := h a (List.mem_cons_self a t)
    have ht : t.sum ≤ (t.length : α) := sum_le_length t fun x hx => h x (List.mem_cons_of_mem a hx)
    simp only [List.sum_cons, List.length_cons]
    push_cast
    linarith

/-- Sum of pointwise multiplication by a constant. -/
theorem sum_map_mul_const {β : Type*} (l : List β) (f : β → α) (c : α) :
    (l.map fun x => f x * c).sum = (l.map f).sum * c := by
  induction l with
  | nil => simp
  | cons a t ih => simp only [List.map_cons, List.sum_cons, ih]; ring

/-- A list summing to `1` is nonempty. -/
theorem ne_nil_of_sum_one (p : List α) (hsum : p.sum = 1) : p ≠ [] := by
  intro h
  rw [h] at hsum
  simp at hsum

/-- A nonempty list of positive values has positive sum. -/
theorem sum_pos_of_pos (l : List α) (hne : l ≠ []) (h : ∀ x ∈ l, 0 < x) : 0 < l.sum := by
  cases l with
  | nil => exact absurd rfl hne
  | cons a t =>
    have ha : 0 < a := h a (List.mem_cons_self a t)
    have ht : 0 ≤ t.sum :=
      List.sum_nonneg fun x hx => le_of_lt (h x (List.mem_cons_of_mem a hx))
    simp only [List.sum_cons]
    linarith

/-- A list of non-positive values has non-positive sum. -/
theorem sum_nonpos_list (l : List α) (h : ∀ x ∈ l, x ≤ 0) : l.sum ≤ 0 := by
  induction l with
  | nil => simp
  | cons a t ih =>
    have ha : a ≤ 0 := h a (List.mem_cons_self a t)
    have ht : t.sum ≤ 0 := ih fun x hx => h x (List.mem_cons_of_mem a hx)
    simp only [List.sum_cons]
    linarith

/-- A list of non-negative values containing a positive one has positive sum. -/
theorem sum_pos_of_mem_pos (l : List α) (hnn : ∀ x ∈ l, 0 ≤ x) (a : α) (ha : a ∈ l)
    (hapos : 0 < a) : 0 < l.sum := by
  induction l with
  | nil => simp at ha
  | cons b t ih =>
    rcases List.mem_cons.mp ha with rfl | hat
    · have ht : 0 ≤ t.sum :=
        List.sum_nonneg fun x hx => hnn x (List.mem_cons_of_mem a hx)
      simp only [List.sum_cons]
      linarith
    · have hb : 0 ≤ b := hnn b (List.mem_cons_self b t)
      have ht : 0 < t.sum := ih (fun x hx => hnn x (List.mem_cons_of_mem b hx)) hat
      simp only [List.sum_cons]
      linarith

/-- Sum of a pointwise baseline injection `fi + c * di` over equally long lists. -/
theorem sum_zipWith_add_mul (f d : List α) (c : α) (h : f.length = d.length) :
    (List.zipWith (fun fi di => fi + c * di) f d).sum = f.sum + c * d.sum := by
  induction f generalizing d with
  | nil =>
    cases d with
    | nil => simp
    | cons b t => simp at h
  | cons a t ih =>
    cases d with
    | nil => simp at h
    | cons b s =>
      simp only [List.zipWith_cons_cons, List.sum_cons]
      rw [ih s (by simpa using h)]
      ring

end ListLemmas

section SetLemmas

variable {β : Type*}

theorem getD_set_self (l : List β) (i : ℕ) (x d : β) (h : i < l.length) :
    (l.set i x).getD i d = x := by
  simp [List.getD_eq_getElem?_getD, List.getElem?_set_self h]

theorem getD_set_ne (l : List β) (i j : ℕ) (x d : β) (h : i ≠ j) :
    (l.set i x).getD j d = l.getD j d := by
  simp [List.getD_eq_getElem?_getD, List.getElem?_set_ne h]

theorem sum_set_int (l : List ℤ) (i : ℕ) (x : ℤ) (h : i < l.length) :
    (l.set i x).sum = l.sum - l.getD i 0 + x := by
  induction l generalizing i with
  | nil => simp at h
  | cons a t ih =>
    cases i with
    | zero => simp [List.set]; ring
    | succ m =>
      simp only [List.set, List.sum_cons, List.getD_cons_succ]
      rw [ih m (by simpa using h)]
      ring

end SetLemmas

section BumpLemmas

theorem bumpAll_nil (fv : List ℤ) : bumpAll fv [] = fv := rfl

theorem bumpAll_cons (fv : List ℤ) (i : ℕ) (idxs : List ℕ) :
    bumpAll fv (i :: idxs) = bumpAll (fv.set i (fv.getD i 0 + 1)) idxs := rfl

theorem bumpAll_length (fv : List ℤ) (idxs : List ℕ) :
    (bumpAll fv idxs).length = fv.length := by
  induction idxs generalizing fv with
  | nil => rfl
  | cons a t ih => rw [bumpAll_cons, ih, List.length_set]

theorem bumpAll_sum (fv : List ℤ) (idxs : List ℕ) (h : ∀ j ∈ idxs, j < fv.length) :
    (bumpAll fv idxs).sum = fv.sum + idxs.length := by
  induction idxs generalizing fv with
  | nil => simp [bumpAll_nil]
  | cons a t ih =>
    have ha : a < fv.length := h a (List.mem_cons_self a t)
    rw [bumpAll_cons, ih]
    · rw [sum_set_int fv a _ ha]
      simp only [List.length_cons]
      push_cast
      ring
    · intro j hj
      rw [List.length_set]
      exact h j (List.mem_cons_of_mem a hj)

theorem bumpAll_getD (fv : List ℤ) (idxs : List ℕ) (hnd : idxs.Nodup)
    (hb : ∀ j ∈ idxs, j < fv.length) (i : ℕ) :
    (bumpAll fv idxs).getD i 0 = fv.getD i 0 + (if i ∈ idxs then 1 else 0) := by
  induction idxs generalizing fv with
  | nil => simp [bumpAll_nil]
  | cons a t ih =>
    have hand : t.Nodup := hnd.of_cons
    have hat : a ∉ t := (List.nodup_cons.mp hnd).1
    have ha : a < fv.length := hb a (List.mem_cons_self a t)
    have hb' : ∀ j ∈ t, j < (fv.set a (fv.getD a 0 + 1)).length := by
      intro j hj
      rw [List.length_set]
      exact hb j (List.mem_cons_of_mem a hj)
    rw [bumpAll_cons, ih _ hand hb']
    by_cases hia : i = a
    · subst hia
      rw [getD_set_self fv i _ 0 ha]
      simp [hat]
    · rw [getD_set_ne fv a i _ 0 (fun hh => hia hh.symm)]
      simp [List.mem_cons, hia]

end BumpLemmas

section RoundingLemmas

variable {α : Type*} [LinearOrderedField α] [FloorRing α]

theorem length_floorVals (p : List α) (k : ℕ) : (floorVals p k).length = p.length := by
  simp [floorVals]

theorem length_remainders (p : List α) (k : ℕ) : (remainders p k).length = p.length := by
  simp [remainders, length_floorVals]

theorem remainders_eq_map (p : List α) (k : ℕ) :
    remainders p k = p.map fun x => Int.fract (x * (10 : α) ^ k) := by
  unfold remainders floorVals
  rw [List.zipWith_map_right, List.zipWith_same]
  simp only [Int.fract]

theorem floorVals_getD (p : List α) (k : ℕ) (i : ℕ) (hi : i < p.length) :
    (floorVals p k).getD i 0 = ⌊p.getD i 0 * (10 : α) ^ k⌋ := by
  simp [floorVals, List.getD_eq_getElem?_getD, List.getElem?_map, List.getElem?_eq_getElem hi]

theorem remainders_getD (p : List α) (k : ℕ) (i : ℕ) (hi : i < p.length) :
    (remainders p k).getD i 0 = Int.fract (p.getD i 0 * (10 : α) ^ k) := by
  rw [remainders_eq_map]
  simp [List.getD_eq_getElem?_getD, List.getElem?_map, List.getElem?_eq_getElem hi]

theorem remainders_nonneg (p : List α) (k : ℕ) : ∀ x ∈ remainders p k, 0 ≤ x := by
  rw [remainders_eq_map]
  intro x hx
  obtain ⟨y, -, rfl⟩ := List.mem_map.mp hx
  exact Int.fract_nonneg _

theorem remainders_lt_one (p : List α) (k : ℕ) : ∀ x ∈ remainders p k, x < 1 := by
  rw [remainders_eq_map]
  intro x hx
  obtain ⟨y, -, rfl⟩ := List.mem_map.mp hx
  exact Int.fract_lt_one _

theorem sum_remainders (p : List α) (k : ℕ) (hsum : p.sum = 1) :
    (remainders p k).sum = (10 : α) ^ k - (((floorVals p k).sum : ℤ) : α) := by
  rw [remainders_eq_map]
  have h1 : (p.map fun x => Int.fract (x * (10 : α) ^ k)).sum
      = (p.map fun x => x * (10 : α) ^ k).sum
        - (p.map fun x => ((⌊x * (10 : α) ^ k⌋ : ℤ) : α)).sum := by
    simp only [Int.fract]
    exact sum_map_sub p _ _
  rw [h1]
  have h2 : (p.map fun x => x * (10 : α) ^ k).sum = (10 : α) ^ k := by
    have := sum_map_mul_const p id ((10 : α) ^ k)
    simpa [hsum] using this
  have h3 : (p.map fun x => ((⌊x * (10 : α) ^ k⌋ : ℤ) : α)).sum
      = (((floorVals p k).sum : ℤ) : α) := by
    rw [Int.cast_list_sum, floorVals, List.map_map]
    rfl
  rw [h2, h3]

theorem deficit_cast (p : List α) (k : ℕ) (hsum : p.sum = 1) :
    ((deficit p k : ℤ) : α) = (remainders p k).sum := by
  rw [sum_remainders p k hsum]
  unfold deficit
  push_cast
  ring

theorem deficit_nonneg (p : List α) (k : ℕ) (hsum : p.sum = 1) : 0 ≤ deficit p k := by
  have h : (0 : α) ≤ ((deficit p k : ℤ) : α) := by
    rw [deficit_cast p k hsum]
    exact List.sum_nonneg (remainders_nonneg p k)
  exact_mod_cast h

theorem deficit_lt_length (p : List α) (k : ℕ) (hsum : p.sum = 1) :
    deficit p k < p.length := by
  have hne : remainders p k ≠ [] := by
    intro h
    apply ne_nil_of_sum_one p hsum
    apply List.eq_nil_of_length_eq_zero
    have hlen := length_remainders p k
    rw [h] at hlen
    simpa using hlen.symm
  have h : ((deficit p k : ℤ) : α) < ((p.length : ℕ) : α) := by
    rw [deficit_cast p k hsum]
    have := sum_lt_length (remainders p k) hne (remainders_lt_one p k)
    rwa [length_remainders] at this
  exact_mod_cast h

theorem deficit_toNat_le (p : List α) (k : ℕ) (hsum : p.sum = 1) :
    (deficit p k).toNat ≤ p.length :=
  Int.toNat_le.mpr (le_of_lt (deficit_lt_length p k hsum))

end RoundingLemmas

section SortLemmas

variable {α : Type*} [LinearOrderedField α] [FloorRing α]

instance remRel.isTotal (rs : List α) : IsTotal ℕ (remRel rs) := by
  constructor
  intro i j
  rcases lt_trichotomy (rs.getD i 0) (rs.getD j 0) with h | h | h
  · exact Or.inr (Or.inl h)
  · rcases le_total i j with hij | hij
    · exact Or.inl (Or.inr ⟨h, hij⟩)
    · exact Or.inr (Or.inr ⟨h.symm, hij⟩)
  · exact Or.inl (Or.inl h)

instance remRel.isTrans (rs : List α) : IsTrans ℕ (remRel rs) := by
  constructor
  intro a b c hab hbc
  rcases hab with h1 | ⟨h1, h1'⟩
  · rcases hbc with h2 | ⟨h2, h2'⟩
    · exact Or.inl (h2.trans h1)
    · exact Or.inl (by rw [← h2]; exact h1)
  · rcases hbc with h2 | ⟨h2, h2'⟩
    · exact Or.inl (by rw [h1]; exact h2)
    · exact Or.inr ⟨h1.trans h2, h1'.trans h2'⟩

theorem sortedIndices_perm (p : List α) (k : ℕ) :
    (sortedIndices p k).Perm (List.range p.length) :=
  List.perm_insertionSort _ _

theorem sortedIndices_sorted (p : List α) (k : ℕ) :
    List.Sorted (remRel (remainders p k)) (sortedIndices p k) :=
  List.sorted_insertionSort _ _

theorem sortedIndices_length (p : List α) (k : ℕ) :
    (sortedIndices p k).length = p.length := by
  rw [(sortedIndices_perm p k).length_eq, List.length_range]

theorem sortedIndices_nodup (p : List α) (k : ℕ) : (sortedIndices p k).Nodup :=
  ((sortedIndices_perm p k).nodup_iff).mpr (List.nodup_range _)

theorem mem_sortedIndices (p : List α) (k : ℕ) {i : ℕ} :
    i ∈ sortedIndices p k ↔ i < p.length := by
  rw [(sortedIndices_perm p k).mem_iff, List.mem_range]

theorem bumpIndices_nodup (p : List α) (k : ℕ) : (bumpIndices p k).Nodup :=
  List.Nodup.sublist (List.take_sublist _ _) (sortedIndices_nodup p k)

theorem bumpIndices_lt (p : List α) (k : ℕ) : ∀ j ∈ bumpIndices p k, j < p.length :=
  fun _ hj => (mem_sortedIndices p k).mp (List.take_subset _ _ hj)

theorem bumpIndices_length (p : List α) (k : ℕ) (hsum : p.sum = 1) :
    (bumpIndices p k).length = (deficit p k).toNat := by
  unfold bumpIndices
  rw [List.length_take]
  exact min_eq_left (by rw [sortedIndices_length]; exact deficit_toNat_le p k hsum)

end SortLemmas

end Hypertuner

/-- Mapping `getD` over the index range of a list reproduces the list. -/
theorem map_getD_range {β : Type*} (l : List β) (d : β) :
    ((List.range l.length).map fun i => l.getD i d) = l := by
  apply List.ext_getElem
  · simp
  · intro i h1 h2
    simp only [List.getElem_map, List.getElem_range]
    rw [List.getD_eq_getElem?_getD, List.getElem?_eq_getElem h2]
    rfl

/-- An in-range `getD` read is a member of the list. -/
theorem getD_mem_of_lt {β : Type*} (l : List β) (i : ℕ) (d : β) (h : i < l.length) :
    l.getD i d ∈ l := by
  rw [List.getD_eq_getElem?_getD, List.getElem?_eq_getElem h]
  exact List.getElem_mem h

/-- Reading a `zipWith` at an in-range index, default values irrelevant. -/
theorem getD_zipWith_of_lt {β γ δ : Type*} (g : β → γ → δ) (l1 : List β) (l2 : List γ)
    (i : ℕ) (d : δ) (d1 : β) (d2 : γ) (h1 : i < l1.length) (h2 : i < l2.length) :
    (List.zipWith g l1 l2).getD i d = g (l1.getD i d1) (l2.getD i d2) := by
  rw [List.getD_eq_getElem?_getD, List.getElem?_zipWith, List.getElem?_eq_getElem h1,
    List.getElem?_eq_getElem h2, List.getD_eq_getElem?_getD, List.getD_eq_getElem?_getD,
    List.getElem?_eq_getElem h1, List.getElem?_eq_getElem h2]
  rfl

namespace Hypertuner

section CruxLemma

variable {α : Type*} [LinearOrderedField α] [FloorRing α]

/-- Every index that receives an extra unit in lines 71–72 has strictly positive
remainder: the deficit equals the total fractional mass, which cannot fill
`deficit` slots if one of the chosen slots contributes nothing. -/
theorem bump_rem_pos (p : List α) (k : ℕ) (hsum : p.sum = 1) :
    ∀ i ∈ bumpIndices p k, 0 < (remainders p k).getD i 0 := by
  intro i hi
  set rs := remainders p k with hrs
  set f : ℕ → α := fun j => rs.getD j 0 with hf
  have hrslen : rs.length = p.length := length_remainders p k
  have hmem_lt : ∀ j, j < p.length → f j ∈ rs := fun j hj =>
    getD_mem_of_lt rs j 0 (hrslen ▸ hj)
  have hf_nonneg : ∀ j, j < p.length → 0 ≤ f j := fun j hj =>
    remainders_nonneg p k _ (hmem_lt j hj)
  have hf_lt_one : ∀ j, j < p.length → f j < 1 := fun j hj =>
    remainders_lt_one p k _ (hmem_lt j hj)
  by_contra hnot
  push_neg at hnot
  have hi_lt : i < p.length := bumpIndices_lt p k i hi
  have hzero : f i = 0 := le_antisymm hnot (hf_nonneg i hi_lt)
  -- split the sorted index list into the bumped part and the rest
  set s := sortedIndices p k with hs
  set dn := (deficit p k).toNat with hdn
  have hsplit : bumpIndices p k ++ s.drop dn = s := List.take_append_drop dn s
  set t := bumpIndices p k with ht
  set dr := s.drop dn with hdr
  -- sum of remainders along the sorted order equals their total
  have hsum_s : ((s.map f).sum : α) = rs.sum := by
    have hperm : (s.map f).Perm ((List.range p.length).map f) :=
      (sortedIndices_perm p k).map f
    rw [hperm.sum_eq]
    rw [hf, ← hrslen]
    rw [map_getD_range rs 0]
  -- everything after the bumped block has zero remainder
  have hpair : ∀ a ∈ t, ∀ b ∈ dr, remRel rs a b := by
    have hsorted : List.Pairwise (remRel rs) s := sortedIndices_sorted p k
    rw [← hsplit] at hsorted
    exact fun a ha b hb => (List.pairwise_append.mp hsorted).2.2 a ha b hb
  have hdr0 : ∀ b ∈ dr, f b = 0 := by
    intro b hb
    have hb_lt : b < p.length := (mem_sortedIndices p k).mp (List.drop_subset _ _ hb)
    have hrel : remRel rs i b := hpair i hi b hb
    have hle : f b ≤ 0 := by
      rcases hrel with h | ⟨h, -⟩
      · exact le_of_lt (hzero ▸ h)
      · have hfb : f b = f i := by
          show rs.getD b 0 = rs.getD i 0
          exact h.symm
        rw [hfb, hzero]
    exact le_antisymm hle (hf_nonneg b hb_lt)
  have hdr_sum : (dr.map f).sum = 0 := by
    apply List.sum_eq_zero
    intro x hx
    obtain ⟨b, hb, rfl⟩ := List.mem_map.mp hx
    exact hdr0 b hb
  -- decompose the bumped block around the zero-remainder index
  obtain ⟨t₁, t₂, hdecomp⟩ := List.append_of_mem hi
  have ht_sub : ∀ j ∈ t, j < p.length := bumpIndices_lt p k
  have ht1_lt : ∀ x ∈ t₁.map f, x < 1 := by
    intro x hx
    obtain ⟨j, hj, rfl⟩ := List.mem_map.mp hx
    exact hf_lt_one j (ht_sub j (hdecomp ▸ List.mem_append_left _ hj))
  have ht2_lt : ∀ x ∈ t₂.map f, x < 1 := by
    intro x hx
    obtain ⟨j, hj, rfl⟩ := List.mem_map.mp hx
    exact hf_lt_one j (ht_sub j (hdecomp ▸ List.mem_append_right _
      (List.mem_cons_of_mem i hj)))
  have ht1_sum : (t₁.map f).sum ≤ (t₁.length : α) := by
    have := sum_le_length (t₁.map f) ht1_lt
    simpa using this
  have ht2_sum : (t₂.map f).sum ≤ (t₂.length : α) := by
    have := sum_le_length (t₂.map f) ht2_lt
    simpa using this
  -- the bumped block carries the whole deficit
  have hd0 : 0 ≤ deficit p k := deficit_nonneg p k hsum
  have hdcast : ((deficit p k : ℤ) : α) = (s.map f).sum := by
    rw [hsum_s, deficit_cast p k hsum]
  have hsmap : (s.map f).sum = (t.map f).sum + (dr.map f).sum := by
    rw [← hsplit]
    rw [List.map_append, List.sum_append]
  have htlen : t.length = dn := bumpIndices_length p k hsum
  have htsum : (t.map f).sum = (t₁.map f).sum + (t₂.map f).sum := by
    rw [hdecomp]
    simp [List.map_append, List.sum_append, hzero]
  have hlen_eq : dn = t₁.length + 1 + t₂.length := by
    rw [← htlen, hdecomp]
    simp [List.length_append]
    omega
  have hdn_cast : ((deficit p k : ℤ) : α) = (dn : α) := by
    have h2 : ((deficit p k).toNat : ℤ) = deficit p k := Int.toNat_of_nonneg hd0
    rw [hdn]
    calc ((deficit p k : ℤ) : α) = (((deficit p k).toNat : ℤ) : α) := by rw [h2]
      _ = ((deficit p k).toNat : α) := by push_cast; ring
  have : (dn : α) ≤ (t₁.length : α) + (t₂.length : α) := by
    calc (dn : α) = ((deficit p k : ℤ) : α) := hdn_cast.symm
      _ = (s.map f).sum := hdcast
      _ = (t.map f).sum + (dr.map f).sum := hsmap
      _ = (t₁.map f).sum + (t₂.map f).sum + 0 := by rw [htsum, hdr_sum]
      _ ≤ (t₁.length : α) + (t₂.length : α) + 0 := by linarith
      _ = (t₁.length : α) + (t₂.length : α) := by ring
  rw [hlen_eq] at this
  push_cast at this
  linarith

end CruxLemma

end Hypertuner

/-- Reading a mapped list at an in-range index, default values irrelevant. -/
theorem getD_map_of_lt {β γ : Type*} (l : List β) (g : β → γ) (i : ℕ) (d : γ) (d' : β)
    (h : i < l.length) : (l.map g).getD i d = g (l.getD i d') := by
  rw [List.getD_eq_getElem?_getD, List.getElem?_map, List.getElem?_eq_getElem h,
    List.getD_eq_getElem?_getD, List.getElem?_eq_getElem h]
  rfl

namespace Hypertuner

section RoundSpec

variable {α : Type*} [LinearOrderedField α] [FloorRing α]

/-- On input summing to one the distribution loop stays in bounds, so
`round_probabilities` succeeds, and its output has the advertised shape:
same length, exact unit sum, each entry an integer multiple of `10^-k` at
least the floored input entry, and each entry within `10^-k` of its input. -/
theorem round_spec (p : List α) (k : ℕ) (hsum : p.sum = 1) :
    ∃ q, round_probabilities p k = some q ∧
      q.length = p.length ∧
      q.sum = 1 ∧
      (∀ i, i < p.length →
        ∃ m : ℤ, q.getD i 0 = (m : α) / (10 : α) ^ k ∧ ⌊p.getD i 0 * (10 : α) ^ k⌋ ≤ m) ∧
      (∀ i, i < p.length → |q.getD i 0 - p.getD i 0| < 1 / (10 : α) ^ k) := by
  set c : α := (10 : α) ^ k with hc
  have hcpos : 0 < c := by positivity
  set fv := floorVals p k with hfv
  set t := bumpIndices p k with ht
  set B := bumpAll fv t with hB
  set q := B.map (fun v : ℤ => (v : α) / c) with hq
  have hfvlen : fv.length = p.length := length_floorVals p k
  have ht_lt : ∀ j ∈ t, j < fv.length := by
    intro j hj
    rw [hfvlen]
    exact bumpIndices_lt p k j hj
  have ht_nodup : t.Nodup := bumpIndices_nodup p k
  have hBlen : B.length = fv.length := bumpAll_length fv t
  have hqlen : q.length = p.length := by
    rw [hq, List.length_map, hBlen, hfvlen]
  have htlen : (t.length : ℤ) = deficit p k := by
    rw [bumpIndices_length p k hsum]
    exact Int.toNat_of_nonneg (deficit_nonneg p k hsum)
  have hBsum : B.sum = 10 ^ k := by
    rw [hB, bumpAll_sum fv t ht_lt, htlen]
    unfold deficit
    rw [hfv]
    ring
  have hqsum : q.sum = 1 := by
    rw [hq]
    rw [sum_map_div B (fun v : ℤ => (v : α)) c]
    rw [← Int.cast_list_sum, hBsum]
    rw [hc]
    push_cast
    field_simp
  refine ⟨q, ?_, hqlen, hqsum, ?_, ?_⟩
  · unfold round_probabilities
    rw [if_pos (deficit_toNat_le p k hsum)]
  · intro i hi
    have hiB : i < B.length := by rw [hBlen, hfvlen]; exact hi
    have hqi : q.getD i 0 = ((B.getD i 0 : ℤ) : α) / c :=
      getD_map_of_lt B (fun v : ℤ => (v : α) / c) i 0 0 hiB
    have hBi : B.getD i 0 = fv.getD i 0 + (if i ∈ t then 1 else 0) :=
      bumpAll_getD fv t ht_nodup ht_lt i
    have hfvi : fv.getD i 0 = ⌊p.getD i 0 * c⌋ := floorVals_getD p k i hi
    refine ⟨B.getD i 0, hqi, ?_⟩
    rw [hBi, hfvi]
    by_cases hmem : i ∈ t <;> simp [hmem]
  · intro i hi
    have hiB : i < B.length := by rw [hBlen, hfvlen]; exact hi
    have hqi : q.getD i 0 = ((B.getD i 0 : ℤ) : α) / c :=
      getD_map_of_lt B (fun v : ℤ => (v : α) / c) i 0 0 hiB
    have hBi : B.getD i 0 = fv.getD i 0 + (if i ∈ t then 1 else 0) :=
      bumpAll_getD fv t ht_nodup ht_lt i
    have hfvi : fv.getD i 0 = ⌊p.getD i 0 * c⌋ := floorVals_getD p k i hi
    set r : α := Int.fract (p.getD i 0 * c) with hr
    have hrep : p.getD i 0 = (((fv.getD i 0 : ℤ) : α) + r) / c := by
      rw [hfvi, hr]
      rw [Int.fract]
      field_simp
    have hr_nonneg : 0 ≤ r := Int.fract_nonneg _
    have hr_lt : r < 1 := Int.fract_lt_one _
    have hdiff : q.getD i 0 - p.getD i 0
        = ((if i ∈ t then (1 : α) else 0) - r) / c := by
      rw [hqi, hrep, hBi]
      by_cases hmem : i ∈ t
      · simp only [hmem, if_true]
        push_cast
        ring
      · simp only [hmem, if_false]
        push_cast
        ring
    have habs : |(if i ∈ t then (1 : α) else 0) - r| < 1 := by
      by_cases hmem : i ∈ t
      · have hrpos : 0 < r := by
          rw [hr, ← remainders_getD p k i hi]
          exact bump_rem_pos p k hsum i hmem
        simp only [hmem, if_true]
        rw [abs_of_nonneg (by linarith)]
        linarith
      · simp only [hmem, if_false]
        rw [zero_sub, abs_neg, abs_of_nonneg hr_nonneg]
        exact hr_lt
    rw [hdiff, abs_div, abs_of_pos hcpos, div_lt_div_iff₀ hcpos hcpos]
    calc |(if i ∈ t then (1 : α) else 0) - r| * c < 1 * c :=
        mul_lt_mul_of_pos_right habs hcpos
      _ = 1 * c := rfl

/-- A vector whose entries are integer multiples of `10^-k` and which sums to
one is a fixed point of `round_probabilities` at digit count `k`:
all remainders vanish, the deficit is zero, and no unit is redistributed. -/
theorem round_probabilities_fixed (q : List α) (k : ℕ) (hsum : q.sum = 1)
    (hmul : ∀ x ∈ q, ∃ m : ℤ, x = (m : α) / (10 : α) ^ k) :
    round_probabilities q k = some q := by
  set c : α := (10 : α) ^ k with hc
  have hcne : c ≠ 0 := by positivity
  have hint : ∀ x ∈ q, ((⌊x * c⌋ : ℤ) : α) = x * c := by
    intro x hx
    obtain ⟨m, rfl⟩ := hmul x hx
    have hmc : (m : α) / c * c = (m : α) := by field_simp
    rw [hmc, Int.floor_intCast]
  have hfvmap : (floorVals q k).map (fun v : ℤ => (v : α)) = q.map (fun x => x * c) := by
    rw [floorVals, List.map_map]
    exact List.map_congr_left fun x hx => hint x hx
  have hfvsum : (floorVals q k).sum = 10 ^ k := by
    have h1 : (((floorVals q k).sum : ℤ) : α) = ((10 ^ k : ℤ) : α) := by
      rw [Int.cast_list_sum, hfvmap]
      have h2 := sum_map_mul_const q id c
      simp only [List.map_id] at h2
      rw [show (q.map fun x => x * c) = (q.map fun x => id x * c) from rfl, h2, hsum]
      push_cast
      ring
    exact_mod_cast h1
  have hdef : deficit q k = 0 := by
    unfold deficit
    rw [hfvsum]
    ring
  have hbump : bumpIndices q k = [] := by
    unfold bumpIndices
    rw [hdef]
    simp
  have hout : (floorVals q k).map (fun v : ℤ => (v : α) / c) = q := by
    rw [floorVals, List.map_map]
    have h3 : ∀ x ∈ q, ((fun v : ℤ => (v : α) / c) ∘ fun x => ⌊x * c⌋) x = id x := by
      intro x hx
      simp only [Function.comp_apply, id]
      rw [hint x hx]
      field_simp
    rw [List.map_congr_left h3, List.map_id]
  unfold round_probabilities
  rw [hbump, bumpAll_nil, hdef]
  simp only [Int.toNat_zero]
  rw [if_pos (Nat.zero_le _)]
  rw [hout]

end RoundSpec

noncomputable section Sampler

/-- Lines 100–103: the hard-coded baseline (floor) vector
`[0.4, 0.1, 0.05, 0, 0, 0]` for VT, THNQ, UPRO, KMLM, GLD, TLT. -/
def baseline : List ℝ := [0.4, 0.1, 0.05, 0, 0, 0]

/-- Line 110, mapped over the loop of lines 107–111: `x_i = -log(u_i)`. -/
def gammaWeights (u : List ℝ) : List ℝ := u.map fun ui => -Real.log ui

/-- Line 112: `d = d / d.sum()`. -/
def dirichletD (u : List ℝ) : List ℝ :=
  (gammaWeights u).map fun xi => xi / (gammaWeights u).sum

/-- Lines 100–115 of `objective`, parametrised by the floor vector (which the
code fixes to `baseline`): the unrounded candidate `p = f + (1 - sum f) * d`.
`math.log` raises `ValueError` on a non-positive argument, and a zero
normalising denominator makes numpy emit NaNs on which the downstream
`math.floor` raises; both failures are embedded as `none`.  The source
contains no feasibility check on `f` and no range check on the draws. -/
def sampleStage (f : List ℝ) (u : List ℝ) : Option (List ℝ) :=
  if ∃ ui ∈ u, ui ≤ 0 then none
  else if (gammaWeights u).sum = 0 then none
  else some (List.zipWith (fun fi di => fi + (1 - f.sum) * di) f (dirichletD u))

/-- Lines 98–120 of `objective`: sample, then round at the configured
precision; the result is what lines 118–120 persist as the user attributes
`p_0 .. p_{N-1}`. -/
def objectiveAlloc (u : List ℝ) : Option (List ℝ) :=
  (sampleStage baseline u).bind fun p => round_probabilities p precision

/-- Lines 174–189 of `main`: reconstruct the best candidate from the stored
parameters `u_0 .. u_{N-1}` by re-running baseline injection, normalisation
and rounding, transcribed independently of `objectiveAlloc` with the same
failure embedding. -/
def bestTrialAlloc (u : List ℝ) : Option (List ℝ) :=
  if ∃ ui ∈ u, ui ≤ 0 then none
  else if (u.map fun ui => -Real.log ui).sum = 0 then none
  else
    round_probabilities
      (List.zipWith
        (fun fi di => fi + (1 - ([0.4, 0.1, 0.05, 0, 0, 0] : List ℝ).sum) * di)
        ([0.4, 0.1, 0.05, 0, 0, 0] : List ℝ)
        ((u.map fun ui => -Real.log ui).map
          fun xi => xi / (u.map fun ui => -Real.log ui).sum))
      4

theorem gammaWeights_length (u : List ℝ) : (gammaWeights u).length = u.length := by
  simp [gammaWeights]

theorem dirichletD_length (u : List ℝ) : (dirichletD u).length = u.length := by
  simp [dirichletD, gammaWeights]

theorem gammaWeights_pos (u : List ℝ) (h : ∀ ui ∈ u, 0 < ui ∧ ui < 1) :
    ∀ x ∈ gammaWeights u, 0 < x := by
  intro x hx
  obtain ⟨ui, hui, rfl⟩ := List.mem_map.mp hx
  have := h ui hui
  have hlog : Real.log ui < 0 := Real.log_neg this.1 this.2
  linarith

theorem gammaWeights_nonneg (u : List ℝ) (h : ∀ ui ∈ u, 0 < ui ∧ ui ≤ 1) :
    ∀ x ∈ gammaWeights u, 0 ≤ x := by
  intro x hx
  obtain ⟨ui, hui, rfl⟩ := List.mem_map.mp hx
  have := h ui hui
  have hlog : Real.log ui ≤ 0 := Real.log_nonpos (le_of_lt this.1) this.2
  linarith

theorem dirichletD_sum (u : List ℝ) (hT : (gammaWeights u).sum ≠ 0) :
    (dirichletD u).sum = 1 := by
  unfold dirichletD
  have h := sum_map_div (gammaWeights u) id ((gammaWeights u).sum)
  simp only [id, List.map_id] at h
  rw [h]
  exact div_self hT

theorem dirichletD_nonneg (u : List ℝ) (hx : ∀ x ∈ gammaWeights u, 0 ≤ x) :
    ∀ d ∈ dirichletD u, 0 ≤ d := by
  intro d hd
  obtain ⟨x, hxm, rfl⟩ := List.mem_map.mp hd
  exact div_nonneg (hx x hxm) (List.sum_nonneg hx)

/-- The sampler of `objective` (lines 106–115): under the intended contract on
the floor vector and the draws, it succeeds and produces a vector of the same
length summing exactly to one with every component at least its floor entry. -/
theorem sampleStage_spec (f u : List ℝ) (hlen : u.length = f.length) (hne : u ≠ [])
    (hS : f.sum < 1) (hu : ∀ ui ∈ u, 0 < ui ∧ ui < 1) :
    ∃ p, sampleStage f u = some p ∧ p.length = f.length ∧ p.sum = 1 ∧
      ∀ i, i < f.length → f.getD i 0 ≤ p.getD i 0 := by
  have h1 : ¬∃ ui ∈ u, ui ≤ 0 := by
    rintro ⟨ui, hui, hle⟩
    exact absurd hle (not_le.mpr (hu ui hui).1)
  have hXpos : ∀ x ∈ gammaWeights u, 0 < x := gammaWeights_pos u hu
  have hXne : gammaWeights u ≠ [] := by
    intro h
    apply hne
    have := gammaWeights_length u
    rw [h] at this
    exact List.eq_nil_of_length_eq_zero (by simpa using this.symm)
  have hT : 0 < (gammaWeights u).sum := sum_pos_of_pos _ hXne hXpos
  have h2 : ¬(gammaWeights u).sum = 0 := ne_of_gt hT
  set d := dirichletD u with hd
  set p := List.zipWith (fun fi di => fi + (1 - f.sum) * di) f d with hp
  have hdlen : d.length = f.length := by rw [hd, dirichletD_length, hlen]
  have hplen : p.length = f.length := by
    rw [hp, List.length_zipWith, hdlen, min_self]
  have hdsum : d.sum = 1 := dirichletD_sum u h2
  have hdnn : ∀ x ∈ d, 0 ≤ x :=
    dirichletD_nonneg u fun x hx => le_of_lt (hXpos x hx)
  refine ⟨p, ?_, hplen, ?_, ?_⟩
  · unfold sampleStage
    rw [if_neg h1, if_neg h2]
  · rw [hp, sum_zipWith_add_mul f d (1 - f.sum) hdlen.symm, hdsum]
    ring
  · intro i hi
    have hid : i < d.length := by rw [hdlen]; exact hi
    have hpi : p.getD i 0 = f.getD i 0 + (1 - f.sum) * d.getD i 0 :=
      getD_zipWith_of_lt _ f d i 0 0 0 hi hid
    have hdi : 0 ≤ d.getD i 0 := hdnn _ (getD_mem_of_lt d i 0 hid)
    have hfact : 0 < 1 - f.sum := by linarith
    rw [hpi]
    nlinarith

/-- With every draw equal to `1` every `-log u_i` vanishes, so the normalising
denominator of line 112 is zero. -/
theorem gammaWeights_sum_allones (u : List ℝ) (h : ∀ ui ∈ u, ui = 1) :
    (gammaWeights u).sum = 0 := by
  apply List.sum_eq_zero
  intro x hx
  obtain ⟨ui, hui, rfl⟩ := List.mem_map.mp hx
  rw [h ui hui, Real.log_one]
  ring

/-- Characterisation of when the unguarded normalisation of line 112 is
well-behaved, for positive draws: positive denominator, non-negative entries
and unit sum hold exactly when every draw is at most one and some draw is
strictly below one. -/
theorem dirichlet_wellformed_iff (u : List ℝ) (hpos : ∀ ui ∈ u, 0 < ui) :
    (0 < (gammaWeights u).sum ∧ (∀ d ∈ dirichletD u, 0 ≤ d) ∧ (dirichletD u).sum = 1)
      ↔ ((∀ ui ∈ u, ui ≤ 1) ∧ ∃ ui ∈ u, ui < 1) := by
  constructor
  · rintro ⟨hT, hdn, -⟩
    constructor
    · intro ui hui
      by_contra hgt
      push_neg at hgt
      have hx : -Real.log ui ∈ gammaWeights u := List.mem_map_of_mem _ hui
      have hd : (-Real.log ui) / (gammaWeights u).sum ∈ dirichletD u :=
        List.mem_map_of_mem _ hx
      have hdnn := hdn _ hd
      have hlogpos : 0 < Real.log ui := Real.log_pos hgt
      have hneg : (-Real.log ui) / (gammaWeights u).sum < 0 :=
        div_neg_of_neg_of_pos (by linarith) hT
      linarith
    · by_contra hnone
      push_neg at hnone
      have hxnp : ∀ x ∈ gammaWeights u, x ≤ 0 := by
        intro x hx
        obtain ⟨ui, hui, rfl⟩ := List.mem_map.mp hx
        have h0 : 0 ≤ Real.log ui := Real.log_nonneg (hnone ui hui)
        linarith
      have := sum_nonpos_list (gammaWeights u) hxnp
      linarith
  · rintro ⟨hle, u0, hu0m, hu0lt⟩
    have hxnn : ∀ x ∈ gammaWeights u, 0 ≤ x :=
      gammaWeights_nonneg u fun ui hui => ⟨hpos ui hui, hle ui hui⟩
    have hx0 : -Real.log u0 ∈ gammaWeights u := List.mem_map_of_mem _ hu0m
    have hx0pos : 0 < -Real.log u0 := by
      have := Real.log_neg (hpos u0 hu0m) hu0lt
      linarith
    have hT : 0 < (gammaWeights u).sum := sum_pos_of_mem_pos _ hxnn _ hx0 hx0pos
    exact ⟨hT, dirichletD_nonneg u hxnn, dirichletD_sum u (ne_of_gt hT)⟩

/-- If every draw equals `1` (permitted by the closed-bound `suggest_float`
call of line 109) the sampling stage fails: the division of line 112 has a
zero denominator, embedded here as `none`. -/
theorem sampleStage_allones (f u : List ℝ) (h : ∀ ui ∈ u, ui = 1) :
    sampleStage f u = none := by
  unfold sampleStage
  rw [if_neg, if_pos (gammaWeights_sum_allones u h)]
  rintro ⟨ui, hui, hle⟩
  rw [h ui hui] at hle
  linarith

/-- The sampling stage never rejects positive draws: for any floor vector and
any draws that are positive with a nonzero weight total, it returns a value. -/
theorem sampleStage_some (f u : List ℝ) (hpos : ∀ ui ∈ u, 0 < ui)
    (hT : (gammaWeights u).sum ≠ 0) :
    sampleStage f u
      = some (List.zipWith (fun fi di => fi + (1 - f.sum) * di) f (dirichletD u)) := by
  unfold sampleStage
  rw [if_neg, if_neg hT]
  rintro ⟨ui, hui, hle⟩
  exact absurd hle (not_le.mpr (hpos ui hui))

end Sampler

/-! ## Claim theorems -/

/-- C2: for every vector of non-negative rationals summing exactly to 1 and
every digit count `k ≥ 0`, `round_probabilities` succeeds and returns a vector
whose integer-scaled values sum exactly to `10^k` (so the returned values sum
exactly to 1), each entry being an integer multiple of `10^-k` differing from
the corresponding input by strictly less than `10^-k`. -/
theorem claim_C2 {α : Type*} [LinearOrderedField α] [FloorRing α]
    (p : List α) (k : ℕ) (hpos : ∀ x ∈ p, 0 ≤ x) (hsum : p.sum = 1) :
    ∃ q, round_probabilities p k = some q ∧
      (q.map fun x => x * (10 : α) ^ k).sum = (10 : α) ^ k ∧
      q.sum = 1 ∧
      (∀ i, i < p.length → ∃ m : ℤ, q.getD i 0 = (m : α) / (10 : α) ^ k) ∧
      (∀ i, i < p.length → |q.getD i 0 - p.getD i 0| < 1 / (10 : α) ^ k) := by
  obtain ⟨q, hq, hqlen, hqsum, hqm, hqerr⟩ := round_spec p k hsum
  refine ⟨q, hq, ?_, hqsum, ?_, hqerr⟩
  · have h := sum_map_mul_const q id ((10 : α) ^ k)
    simp only [id, List.map_id] at h
    rw [h, hqsum, one_mul]
  · intro i hi
    obtain ⟨m, hm, -⟩ := hqm i hi
    exact ⟨m, hm⟩

/-- Witness for C2 at `p = [1/3, 1/3, 1/3]`, `k = 1`. -/
theorem claim_C2_witness :
    (∀ x ∈ ([1/3, 1/3, 1/3] : List ℚ), 0 ≤ x) ∧
    ([1/3, 1/3, 1/3] : List ℚ).sum = 1 ∧
    ∃ q, round_probabilities ([1/3, 1/3, 1/3] : List ℚ) 1 = some q ∧
      (q.map fun x => x * (10 : ℚ) ^ 1).sum = (10 : ℚ) ^ 1 ∧
      q.sum = 1 ∧
      (∀ i, i < ([1/3, 1/3, 1/3] : List ℚ).length →
        ∃ m : ℤ, q.getD i 0 = (m : ℚ) / (10 : ℚ) ^ 1) ∧
      (∀ i, i < ([1/3, 1/3, 1/3] : List ℚ).length →
        |q.getD i 0 - ([1/3, 1/3, 1/3] : List ℚ).getD i 0| < 1 / (10 : ℚ) ^ 1) :=
  ⟨by norm_num, by norm_num, claim_C2 [1/3, 1/3, 1/3] 1 (by norm_num) (by norm_num)⟩

/-- C5: idempotence at fixed precision: whenever a vector `q` is the output of
`round_probabilities` at digit count `k` on an input summing to one, applying
`round_probabilities` to `q` with the same `k` returns `q` unchanged (the
output consists of multiples of `10^-k` summing to one, which have zero
remainders and zero deficit). -/
theorem claim_C5 {α : Type*} [LinearOrderedField α] [FloorRing α]
    (p q : List α) (k : ℕ) (hsum : p.sum = 1)
    (h : round_probabilities p k = some q) :
    round_probabilities q k = some q := by
  obtain ⟨q', hq', hqlen, hqsum, hqm, -⟩ := round_spec p k hsum
  have heq : q' = q := by
    rw [hq'] at h
    injection h
  rw [← heq]
  apply round_probabilities_fixed q' k hqsum
  intro x hx
  obtain ⟨i, hi, rfl⟩ := List.mem_iff_getElem.mp hx
  have hip : i < p.length := by rw [← hqlen]; exact hi
  obtain ⟨m, hm, -⟩ := hqm i hip
  refine ⟨m, ?_⟩
  rw [← hm, List.getD_eq_getElem?_getD, List.getElem?_eq_getElem hi]
  rfl

/-- Witness for C5 at `p = [1/2, 1/2]`, `k = 1`. -/
theorem claim_C5_witness :
    ([1/2, 1/2] : List ℚ).sum = 1 ∧
    round_probabilities ([1/2, 1/2] : List ℚ) 1 = some [1/2, 1/2] ∧
    round_probabilities ([1/2, 1/2] : List ℚ) 1 = some [1/2, 1/2] := by
  have h : round_probabilities ([1/2, 1/2] : List ℚ) 1 = some [1/2, 1/2] := by
    norm_num [round_probabilities, floorVals, deficit, remainders, sortedIndices,
      bumpIndices, bumpAll, remRel, List.insertionSort, List.orderedInsert,
      List.range_succ]
  exact ⟨by norm_num, h, claim_C5 [1/2, 1/2] [1/2, 1/2] 1 (by norm_num) h⟩

/-- C4: `round_probabilities` is a deterministic pure function of the input
vector and digit count, and on success the distribution loop adds exactly one
unit to each of the first `deficit` indices of the sorted index order, which
is a permutation of all positions ordered by remainder descending with ties
broken by ascending original index (first-seen wins). -/
theorem claim_C4 {α : Type*} [LinearOrderedField α] [FloorRing α]
    (p : List α) (k : ℕ) (q : List α)
    (h : round_probabilities p k = some q) :
    (sortedIndices p k).Perm (List.range p.length) ∧
    List.Pairwise (fun i j =>
      (remainders p k).getD j 0 < (remainders p k).getD i 0 ∨
        ((remainders p k).getD i 0 = (remainders p k).getD j 0 ∧ i ≤ j))
      (sortedIndices p k) ∧
    bumpIndices p k = (sortedIndices p k).take (deficit p k).toNat ∧
    ∀ i, i < p.length →
      q.getD i 0 = (((floorVals p k).getD i 0
        + if i ∈ bumpIndices p k then 1 else 0 : ℤ) : α) / (10 : α) ^ k := by
  refine ⟨sortedIndices_perm p k, sortedIndices_sorted p k, rfl, ?_⟩
  intro i hi
  unfold round_probabilities at h
  by_cases hcond : (deficit p k).toNat ≤ p.length
  · rw [if_pos hcond] at h
    injection h with h
    subst h
    have hfvlen : (floorVals p k).length = p.length := length_floorVals p k
    have hblen : (bumpAll (floorVals p k) (bumpIndices p k)).length = p.length := by
      rw [bumpAll_length, hfvlen]
    have hib : i < (bumpAll (floorVals p k) (bumpIndices p k)).length := by
      rw [hblen]; exact hi
    rw [getD_map_of_lt _ _ i 0 0 hib]
    rw [bumpAll_getD (floorVals p k) (bumpIndices p k) (bumpIndices_nodup p k)
      (fun j hj => by rw [hfvlen]; exact bumpIndices_lt p k j hj) i]
  · rw [if_neg hcond] at h
    exact absurd h (by simp)

/-- Witness for C4 at `p = [1]`, `k = 0`. -/
theorem claim_C4_witness :
    round_probabilities ([1] : List ℚ) 0 = some [1] ∧
    ((sortedIndices ([1] : List ℚ) 0).Perm (List.range ([1] : List ℚ).length) ∧
     List.Pairwise (fun i j =>
       (remainders ([1] : List ℚ) 0).getD j 0 < (remainders ([1] : List ℚ) 0).getD i 0 ∨
         ((remainders ([1] : List ℚ) 0).getD i 0
            = (remainders ([1] : List ℚ) 0).getD j 0 ∧ i ≤ j))
       (sortedIndices ([1] : List ℚ) 0) ∧
     bumpIndices ([1] : List ℚ) 0
       = (sortedIndices ([1] : List ℚ) 0).take (deficit ([1] : List ℚ) 0).toNat ∧
     ∀ i, i < ([1] : List ℚ).length →
       ([1] : List ℚ).getD i 0 = (((floorVals ([1] : List ℚ) 0).getD i 0
         + if i ∈ bumpIndices ([1] : List ℚ) 0 then 1 else 0 : ℤ) : ℚ) / (10 : ℚ) ^ 0) := by
  have h : round_probabilities ([1] : List ℚ) 0 = some [1] := by
    norm_num [round_probabilities, floorVals, deficit, remainders, sortedIndices,
      bumpIndices, bumpAll, remRel, List.insertionSort, List.orderedInsert,
      List.range_succ]
  exact ⟨h, claim_C4 [1] 0 [1] h⟩

/-- C3: for every floor vector with non-negative entries summing to `S < 1`
and every vector of draws strictly inside `(1e-8, 1)`, the sampler's output
`p = f + (1 - S) * d` with `d` the normalised `-ln u` weights sums to one and
dominates the floor component-wise. -/
theorem claim_C3 (f u : List ℝ) (hlen : u.length = f.length) (hne : u ≠ [])
    (hf : ∀ x ∈ f, 0 ≤ x) (hS : f.sum < 1)
    (hu : ∀ ui ∈ u, (1e-8 : ℝ) < ui ∧ ui < 1) :
    ∃ p, sampleStage f u = some p ∧ p.sum = 1 ∧
      ∀ i, i < f.length → f.getD i 0 ≤ p.getD i 0 := by
  have hu' : ∀ ui ∈ u, 0 < ui ∧ ui < 1 := fun ui hui =>
    ⟨lt_trans (by norm_num) (hu ui hui).1, (hu ui hui).2⟩
  obtain ⟨p, hps, -, hpsum, hpge⟩ := sampleStage_spec f u hlen hne hS hu'
  exact ⟨p, hps, hpsum, hpge⟩

/-- Witness for C3 at `f = [1/2]`, `u = [exp (-1)]`. -/
theorem claim_C3_witness :
    ([Real.exp (-1)] : List ℝ).length = ([1/2] : List ℝ).length ∧
    ([Real.exp (-1)] : List ℝ) ≠ [] ∧
    (∀ x ∈ ([1/2] : List ℝ), 0 ≤ x) ∧
    ([1/2] : List ℝ).sum < 1 ∧
    (∀ ui ∈ ([Real.exp (-1)] : List ℝ), (1e-8 : ℝ) < ui ∧ ui < 1) ∧
    ∃ p, sampleStage [1/2] [Real.exp (-1)] = some p ∧ p.sum = 1 ∧
      ∀ i, i < ([1/2] : List ℝ).length → ([1/2] : List ℝ).getD i 0 ≤ p.getD i 0 := by
  have hexp_lt : Real.exp (-1) < 1 := by
    have h := Real.exp_lt_exp.mpr (show (-1 : ℝ) < 0 by norm_num)
    rwa [Real.exp_zero] at h
  have hexp_gt : (1e-8 : ℝ) < Real.exp (-1) := by
    rw [Real.exp_neg]
    have h1 : Real.exp 1 < 1e8 := lt_trans Real.exp_one_lt_d9 (by norm_num)
    calc (1e-8 : ℝ) = ((1e8 : ℝ))⁻¹ := by norm_num
      _ < (Real.exp 1)⁻¹ := by
          apply inv_strictAnti₀ (Real.exp_pos 1) h1
  have hu : ∀ ui ∈ ([Real.exp (-1)] : List ℝ), (1e-8 : ℝ) < ui ∧ ui < 1 := by
    intro ui hui
    rw [List.mem_singleton] at hui
    subst hui
    exact ⟨hexp_gt, hexp_lt⟩
  exact ⟨by norm_num, by norm_num, by norm_num, by norm_num, hu,
    claim_C3 [1/2] [Real.exp (-1)] (by norm_num) (by norm_num) (by norm_num)
      (by norm_num) hu⟩

/-- C1: for every valid draw vector, the pipeline of `objective` — baseline
injection with the floor vector `[0.40, 0.10, 0.05, 0, 0, 0]` followed by
largest-remainder rounding at 4 decimal digits — produces a persisted
allocation that sums exactly to one with every component at least its floor
entry; the floors are exact multiples of `10^-4`, so rounding never pushes a
component below its floor. -/
theorem claim_C1 (u : List ℝ) (hlen : u.length = 6)
    (hu : ∀ ui ∈ u, (1e-8 : ℝ) < ui ∧ ui < 1) :
    ∃ q, objectiveAlloc u = some q ∧ q.sum = 1 ∧
      ∀ i, i < 6 → baseline.getD i 0 ≤ q.getD i 0 := by
  have hblen : baseline.length = 6 := by norm_num [baseline]
  have hlen' : u.length = baseline.length := by rw [hlen, hblen]
  have hne : u ≠ [] := by
    intro h
    rw [h] at hlen
    simp at hlen
  have hS : baseline.sum < 1 := by norm_num [baseline]
  have hu' : ∀ ui ∈ u, 0 < ui ∧ ui < 1 := fun ui hui =>
    ⟨lt_trans (by norm_num) (hu ui hui).1, (hu ui hui).2⟩
  obtain ⟨p, hps, hplen, hpsum, hpge⟩ := sampleStage_spec baseline u hlen' hne hS hu'
  obtain ⟨q, hq, hqlen, hqsum, hqm, -⟩ := round_spec p 4 hpsum
  refine ⟨q, ?_, hqsum, ?_⟩
  · unfold objectiveAlloc precision
    rw [hps]
    simpa using hq
  · intro i hi
    have hip : i < p.length := by rw [hplen, hblen]; exact hi
    obtain ⟨m, hqi, hfm⟩ := hqm i hip
    obtain ⟨mb, hmb⟩ : ∃ mb : ℤ, baseline.getD i 0 = (mb : ℝ) / (10 : ℝ) ^ 4 := by
      interval_cases i
      · exact ⟨4000, by norm_num [baseline]⟩
      · exact ⟨1000, by norm_num [baseline]⟩
      · exact ⟨500, by norm_num [baseline]⟩
      · exact ⟨0, by norm_num [baseline]⟩
      · exact ⟨0, by norm_num [baseline]⟩
      · exact ⟨0, by norm_num [baseline]⟩
    have hble : baseline.getD i 0 ≤ p.getD i 0 := hpge i (by rw [hblen]; exact hi)
    have hmbfloor : mb ≤ ⌊p.getD i 0 * (10 : ℝ) ^ 4⌋ := by
      apply Int.le_floor.mpr
      calc (mb : ℝ) = baseline.getD i 0 * (10 : ℝ) ^ 4 := by rw [hmb]; field_simp
        _ ≤ p.getD i 0 * (10 : ℝ) ^ 4 := by nlinarith
    have hmble : mb ≤ m := le_trans hmbfloor hfm
    have hcast : (mb : ℝ) ≤ (m : ℝ) := by exact_mod_cast hmble
    rw [hmb, hqi]
    gcongr

/-- Witness for C1 at `u = replicate 6 (exp (-1))`. -/
theorem claim_C1_witness :
    (List.replicate 6 (Real.exp (-1))).length = 6 ∧
    (∀ ui ∈ List.replicate 6 (Real.exp (-1)), (1e-8 : ℝ) < ui ∧ ui < 1) ∧
    ∃ q, objectiveAlloc (List.replicate 6 (Real.exp (-1))) = some q ∧ q.sum = 1 ∧
      ∀ i, i < 6 → baseline.getD i 0 ≤ q.getD i 0 := by
  have hexp_lt : Real.exp (-1) < 1 := by
    have h := Real.exp_lt_exp.mpr (show (-1 : ℝ) < 0 by norm_num)
    rwa [Real.exp_zero] at h
  have hexp_gt : (1e-8 : ℝ) < Real.exp (-1) := by
    rw [Real.exp_neg]
    have h1 : Real.exp 1 < 1e8 := lt_trans Real.exp_one_lt_d9 (by norm_num)
    calc (1e-8 : ℝ) = ((1e8 : ℝ))⁻¹ := by norm_num
      _ < (Real.exp 1)⁻¹ := by
          apply inv_strictAnti₀ (Real.exp_pos 1) h1
  have hu : ∀ ui ∈ List.replicate 6 (Real.exp (-1)), (1e-8 : ℝ) < ui ∧ ui < 1 := by
    intro ui hui
    rw [List.eq_of_mem_replicate hui]
    exact ⟨hexp_gt, hexp_lt⟩
  exact ⟨by simp, hu, claim_C1 (List.replicate 6 (Real.exp (-1))) (by simp) hu⟩

/-- C8: the loss function equals `-sharpe + max(0, maxdrawdown/100 - 0.4)` for
all real inputs, and in particular `loss(1, 20) = -1`, `loss(1, 60) = -0.8`,
`loss(0, 0) = 0` and `loss(-0.5, 45) = 0.55`. -/
theorem claim_C8 :
    (∀ sharpe maxdrawdown : ℝ,
      loss_function sharpe maxdrawdown
        = -sharpe + max 0 (maxdrawdown / 100 - 2/5)) ∧
    loss_function (1 : ℚ) 20 = -1 ∧
    loss_function (1 : ℚ) 60 = -0.8 ∧
    loss_function (0 : ℚ) 0 = 0 ∧
    loss_function (-0.5 : ℚ) 45 = 0.55 := by
  refine ⟨fun s m => by norm_num [loss_function], ?_, ?_, ?_, ?_⟩ <;>
    norm_num [loss_function, max_def]

/-- Witness for C8: the general form evaluated at `sharpe = 2`,
`maxdrawdown = 50`. -/
theorem claim_C8_witness :
    loss_function (2 : ℝ) 50 = -(2 : ℝ) + max 0 (50 / 100 - 2/5) :=
  claim_C8.1 2 50

/-- C6 counterexample: with a floor vector summing to `1 ≥ 1` and valid draws
the sampling stage proceeds and returns an allocation instead of aborting:
the code contains no configuration-time feasibility check at all. -/
theorem claim_C6_counterexample :
    (1 : ℝ) ≤ ([1, 0, 0, 0, 0, 0] : List ℝ).sum ∧
    sampleStage ([1, 0, 0, 0, 0, 0] : List ℝ)
        [Real.exp (-1), Real.exp (-1), Real.exp (-1), Real.exp (-1), Real.exp (-1),
         Real.exp (-1)]
      = some [1, 0, 0, 0, 0, 0] := by
  constructor
  · norm_num
  · rw [sampleStage_some]
    · norm_num [dirichletD, gammaWeights, Real.log_exp]
    · intro ui hui
      simp only [List.mem_cons, List.not_mem_nil, or_false] at hui
      rcases hui with rfl | rfl | rfl | rfl | rfl | rfl <;> exact Real.exp_pos _
    · norm_num [gammaWeights, Real.log_exp]

/-- C6 amended: the floor vector of the program is hard-coded with sum
`0.55 < 1`, so the infeasible configuration cannot arise in a run; the code
performs no configuration-time feasibility check, and for any floor vector
summing to `≥ 1` the sampler still proceeds on valid draws and returns a
value rather than failing fast. -/
theorem claim_C6 :
    baseline.sum = 0.55 ∧ baseline.sum < 1 ∧
    ∀ (f u : List ℝ), 1 ≤ f.sum → (∀ ui ∈ u, 0 < ui) →
      (gammaWeights u).sum ≠ 0 → ∃ p, sampleStage f u = some p := by
  refine ⟨by norm_num [baseline], by norm_num [baseline], ?_⟩
  intro f u _hS hpos hT
  exact ⟨_, sampleStage_some f u hpos hT⟩

/-- Witness for C6 at `f = [2]` (sum `2 ≥ 1`), `u = [exp (-1)]`. -/
theorem claim_C6_witness :
    (1 : ℝ) ≤ ([2] : List ℝ).sum ∧
    ∃ p, sampleStage ([2] : List ℝ) [Real.exp (-1)] = some p := by
  refine ⟨by norm_num, ?_⟩
  exact claim_C6.2.2 [2] [Real.exp (-1)] (by norm_num)
    (by intro ui hui; rw [List.mem_singleton] at hui; subst hui; exact Real.exp_pos _)
    (by norm_num [gammaWeights, Real.log_exp])

/-- C7 counterexample: the draw `u_0 = 1` lies outside the open interval
`(1e-8, 1)` required by the logarithm step, yet the sampler computes with it
and returns an allocation — it does not reject the trial's sampling. -/
theorem claim_C7_counterexample :
    ¬((1e-8 : ℝ) < 1 ∧ (1 : ℝ) < 1) ∧
    sampleStage baseline
        [1, Real.exp (-1), Real.exp (-1), Real.exp (-1), Real.exp (-1), Real.exp (-1)]
      = some [2/5, 19/100, 7/50, 9/100, 9/100, 9/100] := by
  constructor
  · rintro ⟨-, h⟩
    exact lt_irrefl 1 h
  · rw [sampleStage_some]
    · norm_num [baseline, dirichletD, gammaWeights, Real.log_exp, Real.log_one]
    · intro ui hui
      simp only [List.mem_cons, List.not_mem_nil, or_false] at hui
      rcases hui with rfl | rfl | rfl | rfl | rfl | rfl
      · norm_num
      all_goals exact Real.exp_pos _
    · norm_num [gammaWeights, Real.log_exp, Real.log_one]

/-- C7 amended: the sampler performs no range validation and never clamps:
only a non-positive draw fails (the modelled `math.log` domain error), and any
vector of positive draws with nonzero weight total — including draws outside
`(1e-8, 1)` such as exactly `1` — is computed with normally. -/
theorem claim_C7 :
    (∀ f u : List ℝ, (∃ ui ∈ u, ui ≤ 0) → sampleStage f u = none) ∧
    (∀ f u : List ℝ, (∀ ui ∈ u, 0 < ui) → (gammaWeights u).sum ≠ 0 →
      ∃ p, sampleStage f u = some p) := by
  constructor
  · intro f u h
    unfold sampleStage
    rw [if_pos h]
  · intro f u hpos hT
    exact ⟨_, sampleStage_some f u hpos hT⟩

/-- Witness for C7 at `u = [-1]` (rejected) and `u = [exp (-1)]` (computed). -/
theorem claim_C7_witness :
    sampleStage ([0] : List ℝ) [-1] = none ∧
    ∃ p, sampleStage ([1/2] : List ℝ) [Real.exp (-1)] = some p :=
  ⟨claim_C7.1 [0] [-1] ⟨-1, by simp, by norm_num⟩,
   claim_C7.2 [1/2] [Real.exp (-1)]
     (by intro ui hui; rw [List.mem_singleton] at hui; subst hui; exact Real.exp_pos _)
     (by norm_num [gammaWeights, Real.log_exp])⟩

/-- C9: for every stored draw vector, the allocation reconstructed after the
run by `main` (lines 174–189) equals the allocation computed and persisted by
`objective` during the trial (lines 98–120): the two computations are the
same function of the raw parameters. -/
theorem claim_C9 (u : List ℝ) : objectiveAlloc u = bestTrialAlloc u := by
  unfold objectiveAlloc bestTrialAlloc sampleStage gammaWeights dirichletD baseline precision
  by_cases h1 : ∃ ui ∈ u, ui ≤ 0
  · simp [h1]
  · by_cases h2 : (u.map fun ui => -Real.log ui).sum = 0
    · simp [h1, h2, gammaWeights]
    · simp [h1, h2, gammaWeights, List.map_map, Function.comp]

/-- Witness for C9 at a concrete draw vector. -/
theorem claim_C9_witness :
    objectiveAlloc [1/2, 1/2, 1/2, 1/2, 1/2, 1/2]
      = bestTrialAlloc [1/2, 1/2, 1/2, 1/2, 1/2, 1/2] :=
  claim_C9 [1/2, 1/2, 1/2, 1/2, 1/2, 1/2]

/-- C10: for positive draws, the unguarded normalisation of line 112 has a
strictly positive denominator with `d` non-negative and summing to one exactly
when every draw is at most `1` and at least one is strictly less than `1`;
when every draw equals `1` (a value the closed-bound `suggest_float` call
permits) the denominator `Σ(-ln u_i)` is zero and the sampling stage fails
(the division is undefined, embedded as `none`). -/
theorem claim_C10 :
    (∀ u : List ℝ, (∀ ui ∈ u, 0 < ui) →
      ((0 < (gammaWeights u).sum ∧ (∀ d ∈ dirichletD u, 0 ≤ d) ∧
          (dirichletD u).sum = 1)
        ↔ ((∀ ui ∈ u, ui ≤ 1) ∧ ∃ ui ∈ u, ui < 1))) ∧
    (∀ f u : List ℝ, (∀ ui ∈ u, ui = 1) →
      (gammaWeights u).sum = 0 ∧ sampleStage f u = none) := by
  constructor
  · exact dirichlet_wellformed_iff
  · intro f u h
    exact ⟨gammaWeights_sum_allones u h, sampleStage_allones f u h⟩

/-- Witness for C10 at `u = [1/2]` (iff instance) and `u = [1, 1]` (zero
denominator). -/
theorem claim_C10_witness :
    ((0 < (gammaWeights [1/2]).sum ∧ (∀ d ∈ dirichletD [1/2], 0 ≤ d) ∧
        (dirichletD [1/2]).sum = 1)
      ↔ ((∀ ui ∈ ([1/2] : List ℝ), ui ≤ 1) ∧ ∃ ui ∈ ([1/2] : List ℝ), ui < 1)) ∧
    ((gammaWeights [1, 1]).sum = 0 ∧ sampleStage ([0] : List ℝ) [1, 1] = none) :=
  ⟨claim_C10.1 [1/2] (by norm_num),
   claim_C10.2 [0] [1, 1] (by
     intro ui hui
     simp only [List.mem_cons, List.not_mem_nil, or_false] at hui
     rcases hui with rfl | rfl <;> rfl)⟩

end Hypertuner
